import Mathlib

/-!
Verification of the mirror-field cipher engine (`src/modules/mirrorfield.c`).

The module keeps, per mirror field, a `GRID_SIZE × GRID_SIZE` array of
interior mirror cells and a `4 × GRID_SIZE` array of perimeter slots.
`GRID_SIZE` and `MIRROR_FIELD_COUNT` are configuration constants defined
outside this module (`main.h`); every definition below is parameterised by
`G` (`GRID_SIZE`) and `MFC` (`MIRROR_FIELD_COUNT`).

Machine integers: cell values are C `int`s, modelled as `Int`; the
`unsigned char` conversions in `mirrorfield_crypt_char` are modelled by
reduction modulo 256 (`uchar`).  Array cells are modelled as `List Int`
rows; reads use `getv` (`getD _ 0`) and writes use `List.set`.  Code paths
that are undefined behaviour in C (NULL-pointer dereference when the start
node is not found, out-of-bounds indexing in `mirrorfield_roll_chars`,
running out of the recursion's termination argument) are modelled as
`Option.none`.
-/

/-- Mirror code `MIRROR_NONE` (empty cell, value `-1`). -/
def MIRROR_NONE : Int := -1

/-- Mirror code `MIRROR_FORWARD` (`/` mirror, value `-2`). -/
def MIRROR_FORWARD : Int := -2

/-- Mirror code `MIRROR_STRAIGHT` (`-` mirror, value `-3`). -/
def MIRROR_STRAIGHT : Int := -3

/-- Mirror code `MIRROR_BACKWARD` (`\` mirror, value `-4`). -/
def MIRROR_BACKWARD : Int := -4

/-- Travel directions `DIR_UP` / `DIR_DOWN` / `DIR_LEFT` / `DIR_RIGHT`. -/
inductive Dir : Type where
  | up : Dir
  | down : Dir
  | left : Dir
  | right : Dir
deriving DecidableEq, Repr

/-- A node of one mirror field: an interior cell `gridnodes[_][i]`
(`0 ≤ i < G*G`, row-major) or a perimeter slot `perimeter[_][i]`
(`0 ≤ i < 4*G`; first `G` top, then `G` right, then `G` bottom, then
`G` left). -/
inductive Node : Type where
  | cell : Nat → Node
  | peri : Nat → Node
deriving DecidableEq, Repr

/-- Read a list cell the way C reads an array element in range
(out-of-range reads only ever happen under well-formedness hypotheses
that exclude them; the default `0` is arbitrary). -/
def getv : List Int → Nat → Int
  | [], _ => 0
  | v :: _, 0 => v
  | _ :: t, i + 1 => getv t i

/-- The `down` link created by `mirrorfield_link`: each top perimeter slot
links to the first cell of its column, each interior cell to the cell
below it, and each last-row cell to its bottom perimeter slot. -/
def nbDown (G : Nat) : Node → Option Node
  | .peri i => if i < G then some (.cell i) else none
  | .cell i =>
      if i + G < G * G then some (.cell (i + G))
      else if i < G * G then some (.peri (i % G + 2 * G)) else none

/-- The `up` link created by `mirrorfield_link` (reciprocal of `nbDown`). -/
def nbUp (G : Nat) : Node → Option Node
  | .peri i =>
      if 2 * G ≤ i ∧ i < 3 * G then some (.cell (G * G - G + (i - 2 * G))) else none
  | .cell i =>
      if i < G then some (.peri i)
      else if i < G * G then some (.cell (i - G)) else none

/-- The `right` link created by `mirrorfield_link`: each left perimeter slot
links to the first cell of its row, each interior cell to the cell to its
right, and each last-column cell to its right perimeter slot. -/
def nbRight (G : Nat) : Node → Option Node
  | .peri i =>
      if 3 * G ≤ i ∧ i < 4 * G then some (.cell ((i - 3 * G) * G)) else none
  | .cell i =>
      if i < G * G then
        if i % G + 1 < G then some (.cell (i + 1)) else some (.peri (i / G + G))
      else none

/-- The `left` link created by `mirrorfield_link` (reciprocal of `nbRight`). -/
def nbLeft (G : Nat) : Node → Option Node
  | .peri i =>
      if G ≤ i ∧ i < 2 * G then some (.cell ((i - G) * G + (G - 1))) else none
  | .cell i =>
      if i < G * G then
        if i % G = 0 then some (.peri (i / G + 3 * G)) else some (.cell (i - 1))
      else none

/-- Follow one pointer of the linked topology in direction `d`
(the `switch (d)` at the top of `mirrorfield_crypt_char_advance`). -/
def neighbor (G : Nat) (n : Node) : Dir → Option Node
  | .up => nbUp G n
  | .down => nbDown G n
  | .left => nbLeft G n
  | .right => nbRight G n

/-- Initial direction selection in `mirrorfield_crypt_char`: the first
non-NULL link of the start node, tested in the order down, up, left,
right; `none` models the uninitialised `d` when all links are NULL. -/
def initialDir (G : Nat) (n : Node) : Option Dir :=
  if (nbDown G n).isSome then some .down
  else if (nbUp G n).isSome then some .up
  else if (nbLeft G n).isSome then some .left
  else if (nbRight G n).isSome then some .right
  else none

/-- Reflection rule of `mirrorfield_crypt_char_advance`: a FORWARD mirror
turns DOWN→LEFT, LEFT→DOWN, RIGHT→UP, UP→RIGHT; a BACKWARD mirror turns
DOWN→RIGHT, LEFT→UP, RIGHT→DOWN, UP→LEFT; any other value leaves the
direction unchanged. -/
def reflect (v : Int) (d : Dir) : Dir :=
  if v = MIRROR_FORWARD then
    match d with
    | .down => .left
    | .left => .down
    | .right => .up
    | .up => .right
  else if v = MIRROR_BACKWARD then
    match d with
    | .down => .right
    | .left => .up
    | .right => .down
    | .up => .left
  else d

/-- Mirror rotation performed after the recursive call in
`mirrorfield_crypt_char_advance`: FORWARD→STRAIGHT, BACKWARD→FORWARD,
STRAIGHT→BACKWARD; every other value (in particular `MIRROR_NONE`) is
left unchanged. -/
def rotateMirror (v : Int) : Int :=
  if v = MIRROR_FORWARD then MIRROR_STRAIGHT
  else if v = MIRROR_BACKWARD then MIRROR_FORWARD
  else if v = MIRROR_STRAIGHT then MIRROR_BACKWARD
  else v

/-- Value stored at a node of field `m`: `gridnodes[m][i].value` for an
interior cell, `perimeter[m][i].value` for a perimeter slot. -/
def nodeVal (g p : List Int) : Node → Int
  | .cell i => getv g i
  | .peri i => getv p i

/-- `mirrorfield_crypt_char_advance`, fuel-indexed.  One fuel unit is
consumed per node entered.  The C function recurses without a bound;
`none` models running past the given bound (and a NULL-pointer step).
On success it returns the exit node together with the updated interior
and perimeter value arrays of the field (mirror cells the traversal
passed through have been rotated, innermost first, exactly as the C
code rotates them on the way back out of the recursion). -/
def advance (G : Nat) : Nat → List Int → List Int → Node → Dir →
    Option (Node × List Int × List Int)
  | 0, _, _, _, _ => none
  | fuel + 1, g, p, n, d =>
    match neighbor G n d with
    | none => none
    | some q =>
      if nodeVal g p q < 0 then
        match advance G fuel g p q (reflect (nodeVal g p q) d) with
        | none => none
        | some (t, g', p') =>
          match q with
          | .cell i => some (t, g'.set i (rotateMirror (getv g' i)), p')
          | .peri i => some (t, g', p'.set i (rotateMirror (getv p' i)))
      else
        some (q, g, p)

/-- The linear search `for (i = 0; perimeter[m][i].value != x; ++i);` of
`mirrorfield_roll_chars` (also the start-node search of
`mirrorfield_crypt_char`, which additionally stops at `GRID_SIZE * 4`):
index of the first occurrence of `x`, `none` when `x` is absent (in C
the roll search would then read past the end of the array). -/
def findValAux (x : Int) : List Int → Nat → Option Nat
  | [], _ => none
  | v :: t, k => if v = x then some k else findValAux x t (k + 1)

/-- First index holding value `x`. -/
def findVal (l : List Int) (x : Int) : Option Nat := findValAux x l 0

/-- The two-assignment swap of `mirrorfield_roll_chars`:
`t = pm[i]; pm[i] = pm[j]; pm[j] = t`. -/
def listSwap (l : List Int) (i j : Nat) : List Int :=
  (l.set i (getv l j)).set j (getv l i)

/-- Update of the static roll-window state `(g1, g2, c)` at the end of
`mirrorfield_roll_chars`: `if (++c == MIRROR_FIELD_COUNT) { g1 = (g1+1) %
(GRID_SIZE*4); g2 = (g2+1) % (GRID_SIZE*4); c = 0; }`. -/
def windowStep (G MFC : Nat) (g1 g2 c : Nat) : Nat × Nat × Nat :=
  if c + 1 = MFC then ((g1 + 1) % (4 * G), (g2 + 1) % (4 * G), 0)
  else (g1, g2, c + 1)

/-- Core of `mirrorfield_roll_chars` once the rotate order `(x1, x2)` has
been determined: find the slot holding `x1` and swap it with slot `g1`,
then find the slot holding `x2` and swap it with slot `g2`, then advance
the roll-window state.  `none` models the unbounded search running past
the array when the value is absent. -/
def rollApply (G MFC : Nat) (pm : List Int) (g1 g2 c : Nat) (x1 x2 : Int) :
    Option (List Int × Nat × Nat × Nat) :=
  match findVal pm x1 with
  | none => none
  | some i =>
    let pm1 := listSwap pm i g1
    match findVal pm1 x2 with
    | none => none
    | some i2 => some (listSwap pm1 i2 g2, windowStep G MFC g1 g2 c)

/-- `mirrorfield_roll_chars(s, e, m)` acting on field `m`'s perimeter
array `pm` and the static window `(g1, g2, c)`.  The rotate order is
decided by comparing `perimeter[m][s].value` with `perimeter[m][e].value`
— the perimeter array indexed by the raw character codes `s` and `e`
themselves.  That read is not guarded in C; an index `≥ 4*G` is an
out-of-bounds access, modelled as `none`. -/
def rollChars (G MFC : Nat) (pm : List Int) (g1 g2 c : Nat) (s e : Nat) :
    Option (List Int × Nat × Nat × Nat) :=
  if s < 4 * G ∧ e < 4 * G then
    if getv pm s > getv pm e then rollApply G MFC pm g1 g2 c s e
    else rollApply G MFC pm g1 g2 c e s
  else none

/-- C `unsigned char` conversion of an `int` value. -/
def uchar (v : Int) : Nat := (v % 256).toNat

/-- The whole mutable state of the module: the two static arrays plus the
function-local static variables `m` (of `mirrorfield_crypt_char`),
`g1`, `g2`, `c` (of `mirrorfield_roll_chars`) and `i` (of
`mirrorfield_set`, called `loadPos` here). -/
structure EngineState : Type where
  grid : List (List Int)
  perim : List (List Int)
  m : Nat
  g1 : Nat
  g2 : Nat
  c : Nat
  loadPos : Nat
deriving DecidableEq, Repr

/-- The state of a freshly started process: static arrays zero-initialised,
`m = 0`, `g1 = 0`, `g2 = GRID_SIZE * 2`, `c = 0`, loader position `0`. -/
def freshEngine (G MFC : Nat) : EngineState :=
  { grid := List.replicate MFC (List.replicate (G * G) 0)
    perim := List.replicate MFC (List.replicate (4 * G) 0)
    m := 0
    g1 := 0
    g2 := G * 2
    c := 0
    loadPos := 0 }

/-- `mirrorfield_init`: writes `0` into every `value` and NULL into every
link of both static arrays.  It does not touch the function-local static
variables of the other functions. -/
def mirrorfield_init (G MFC : Nat) (st : EngineState) : EngineState :=
  { st with
    grid := List.replicate MFC (List.replicate (G * G) 0)
    perim := List.replicate MFC (List.replicate (4 * G) 0) }

/-- `mirrorfield_set`: consumes one configuration byte at position
`loadPos`; mirror codes first (`/`, `\`, `-`, space, rejecting anything
else), then perimeter character codes, rejecting extra input. -/
def mirrorfield_set (G MFC : Nat) (st : EngineState) (ch : Nat) :
    Bool × EngineState :=
  if st.loadPos < G * G * MFC then
    let j := st.loadPos / (G * G)
    let idx := st.loadPos % (G * G)
    let mv : Option Int :=
      if ch = 47 then some MIRROR_FORWARD
      else if ch = 92 then some MIRROR_BACKWARD
      else if ch = 45 then some MIRROR_STRAIGHT
      else if ch = 32 then some MIRROR_NONE
      else none
    match mv with
    | none => (false, st)
    | some v =>
        (true, { st with
          grid := st.grid.set j ((st.grid.getD j []).set idx v)
          loadPos := st.loadPos + 1 })
  else if st.loadPos < G * G * MFC + 4 * G * MFC then
    let r := st.loadPos - G * G * MFC
    (true, { st with
      perim := st.perim.set (r / (4 * G))
        ((st.perim.getD (r / (4 * G)) []).set (r % (4 * G)) (ch : Int))
      loadPos := st.loadPos + 1 })
  else (false, st)

/-- `mirrorfield_validate`: every interior value is one of the four mirror
codes and no two perimeter slots of one field hold the same value. -/
def mirrorfield_validate (G MFC : Nat) (st : EngineState) : Bool :=
  ((List.range MFC).all fun k =>
    (List.range (G * G)).all fun i =>
      !(getv (st.grid.getD k []) i > MIRROR_NONE ||
        getv (st.grid.getD k []) i < MIRROR_BACKWARD)) &&
  ((List.range MFC).all fun k =>
    (List.range (4 * G)).all fun i =>
      (List.range (4 * G)).all fun j =>
        if j ≤ i then true
        else !(getv (st.perim.getD k []) i == getv (st.perim.getD k []) j))

/-- In-range node indices: an interior cell index is below `G*G`, a
perimeter slot index below `4*G` (the static array bounds). -/
def Node.wf (G : Nat) : Node → Prop
  | .cell i => i < G * G
  | .peri i => i < 4 * G

/-- Numeric encoding of a direction (used to count traversal states). -/
def dirIdx : Dir → Nat
  | .up => 0
  | .down => 1
  | .left => 2
  | .right => 3

/-- Numeric encoding of a traversal state (node plus direction). -/
def encSt (s : Node × Dir) : Nat :=
  match s.1 with
  | .cell i => 4 * i + dirIdx s.2
  | .peri i => 4 * i + dirIdx s.2

/-- One step of the descending phase of `mirrorfield_crypt_char_advance`
as a pure transition on (node, direction) states: move along the link,
and if the entered node holds a mirror code continue with the reflected
direction; `none` when the entered node ends the traversal (value `≥ 0`)
or the link is NULL.  The descent never mutates the arrays (all mirror
rotation happens on the way back out of the recursion), so this step
function over the initial arrays describes the whole path. -/
def rayNext (G : Nat) (g p : List Int) (s : Node × Dir) : Option (Node × Dir) :=
  match neighbor G s.1 s.2 with
  | none => none
  | some q => if nodeVal g p q < 0 then some (q, reflect (nodeVal g p q) s.2) else none

/-- Iterated `rayNext`. -/
def orbit (G : Nat) (g p : List Int) : Nat → (Node × Dir) → Option (Node × Dir)
  | 0, s => some s
  | n + 1, s =>
    match rayNext G g p s with
    | none => none
    | some s2 => orbit G g p n s2

/-- Iterated roll-window update (`k` successive calls of the rolling step). -/
def windowIter (G MFC : Nat) : Nat → Nat × Nat × Nat → Nat × Nat × Nat
  | 0, w => w
  | k + 1, w =>
    let w2 := windowIter G MFC k w
    windowStep G MFC w2.1 w2.2.1 w2.2.2

/-- Occurrence count of a value in a list (multiset view of a perimeter). -/
def countv (x : Int) : List Int → Nat
  | [] => 0
  | v :: t => (if v = x then 1 else 0) + countv x t

/-- `mirrorfield_crypt_char`: find the start slot holding the input byte in
the current field, run the traversal, read the (post-traversal) start and
end values `sv`/`ev` as unsigned chars, roll, apply the output-selection
rule on the post-roll perimeter, advance the field cursor.  `none` models
the NULL-pointer dereference when the byte is absent from the perimeter,
an uninitialised direction, an unterminated traversal, and the
out-of-bounds cases inside `mirrorfield_roll_chars`. -/
def cryptChar (G MFC : Nat) (st : EngineState) (ch : Nat) :
    Option (Nat × EngineState) :=
  let gm := st.grid.getD st.m []
  let pm := st.perim.getD st.m []
  match findVal pm (ch : Int) with
  | none => none
  | some si =>
    match initialDir G (.peri si) with
    | none => none
    | some d =>
      match advance G (4 * G * G + 1) gm pm (.peri si) d with
      | none => none
      | some (en, g', p') =>
        let sv := uchar (getv p' si)
        let ev := uchar (nodeVal g' p' en)
        match rollChars G MFC p' st.g1 st.g2 st.c sv ev with
        | none => none
        | some (pm3, w) =>
          let k := (ev + sv) % (4 * G)
          let rv := if getv pm3 k = (k : Int) then sv else ev
          some (rv, { st with
            grid := st.grid.set st.m g'
            perim := st.perim.set st.m pm3
            m := (st.m + 1) % MFC
            g1 := w.1
            g2 := w.2.1
            c := w.2.2 })

/-! ## Helper lemmas on lists -/

theorem getv_set (l : List Int) (i j : Nat) (a : Int) :
    getv (l.set i a) j = if i = j ∧ i < l.length then a else getv l j := by
  induction l generalizing i j with
  | nil => simp [List.set, getv]
  | cons b t ih =>
    cases i with
    | zero => cases j <;> simp [List.set, getv]
    | succ i2 =>
      cases j with
      | zero => simp [List.set, getv]
      | succ k => simpa [List.set, getv, Nat.succ_lt_succ_iff] using ih i2 k

theorem getD_set_lists (l : List (List Int)) (i j : Nat) (a dflt : List Int) :
    (l.set i a).getD j dflt = if i = j ∧ i < l.length then a else l.getD j dflt := by
  induction l generalizing i j with
  | nil => simp [List.set]
  | cons b t ih =>
    cases i with
    | zero => cases j <;> simp [List.set]
    | succ i2 =>
      cases j with
      | zero => simp [List.set]
      | succ k => simpa [List.set, Nat.succ_lt_succ_iff] using ih i2 k

theorem countv_set (x : Int) (l : List Int) (i : Nat) (a : Int) (h : i < l.length) :
    countv x (l.set i a) + (if getv l i = x then 1 else 0) =
      countv x l + (if a = x then 1 else 0) := by
  induction l generalizing i with
  | nil => simp at h
  | cons b t ih =>
    cases i with
    | zero => simp [List.set, countv, getv]; omega
    | succ i2 =>
      have := ih i2 (by simpa using h)
      simp only [List.set, countv, getv]
      omega

theorem countv_eq_count (x : Int) (l : List Int) : countv x l = l.count x := by
  induction l with
  | nil => simp [countv]
  | cons b t ih => simp [countv, List.count_cons, ih, Nat.add_comm]

theorem listSwap_perm (l : List Int) (i j : Nat) (hi : i < l.length)
    (hj : j < l.length) : (listSwap l i j).Perm l := by
  rw [List.perm_iff_count]
  intro x
  rw [← countv_eq_count, ← countv_eq_count]
  have h1 := countv_set x l i (getv l j) hi
  have hlen : (l.set i (getv l j)).length = l.length := by simp
  have h2 := countv_set x (l.set i (getv l j)) j (getv l i) (by omega)
  have h3 : getv (l.set i (getv l j)) j = getv l j := by
    rw [getv_set]; split <;> simp_all
  rw [h3] at h2
  unfold listSwap
  omega

theorem listSwap_length (l : List Int) (i j : Nat) :
    (listSwap l i j).length = l.length := by
  simp [listSwap]

theorem findValAux_bound (x : Int) :
    ∀ (l : List Int) (k i : Nat), findValAux x l k = some i → k ≤ i ∧ i < k + l.length := by
  intro l
  induction l with
  | nil => intro k i h; simp [findValAux] at h
  | cons b t ih =>
    intro k i h
    simp only [findValAux] at h
    by_cases hb : b = x
    · rw [if_pos hb] at h
      cases h
      simp
    · rw [if_neg hb] at h
      have := ih (k + 1) i h
      simp only [List.length_cons]
      omega

theorem findVal_lt (l : List Int) (x : Int) (i : Nat) (h : findVal l x = some i) :
    i < l.length := by
  have := findValAux_bound x l 0 i h
  omega

/-! ## C2: what mirrorfield_init resets -/

/-- C2 counterexample: `mirrorfield_init` does not return the engine to the
freshly-started state.  Starting from a state that differs from the fresh
one only in the field cursor `m` (the function-local static of
`mirrorfield_crypt_char`), `init` leaves `m = 1`, so the claim that after
`init()` the entire mutable state — including the Field Cursor, the Roll
Window and the loader position — is at its zero/default value is false. -/
theorem c2_init_counterexample :
    ¬ mirrorfield_init 2 2 { freshEngine 2 2 with m := 1 } = freshEngine 2 2 := by
  decide

/-- C2 (amended): `mirrorfield_init` resets every interior cell value and
link and every perimeter slot value and link of all fields to zero/NULL,
but leaves the loader's input position, the Roll Window (`g1`, `g2`, `c`)
and the Field Cursor `m` untouched (they are function-local statics of
the other functions, which `init` never reaches). -/
theorem c2_init_amended (G MFC : Nat) (st : EngineState) :
    (mirrorfield_init G MFC st).grid =
        List.replicate MFC (List.replicate (G * G) 0) ∧
    (mirrorfield_init G MFC st).perim =
        List.replicate MFC (List.replicate (4 * G) 0) ∧
    (mirrorfield_init G MFC st).m = st.m ∧
    (mirrorfield_init G MFC st).g1 = st.g1 ∧
    (mirrorfield_init G MFC st).g2 = st.g2 ∧
    (mirrorfield_init G MFC st).c = st.c ∧
    (mirrorfield_init G MFC st).loadPos = st.loadPos :=
  ⟨rfl, rfl, rfl, rfl, rfl, rfl, rfl⟩

/-! ## C7: the reflection rule -/

/-- C7: in every traversal step that enters an interior cell, the direction
is updated by the reflection rule of the cell's current value — FORWARD
maps DOWN→LEFT, LEFT→DOWN, RIGHT→UP, UP→RIGHT; BACKWARD maps DOWN→RIGHT,
LEFT→UP, RIGHT→DOWN, UP→LEFT; NONE and STRAIGHT leave the direction
unchanged — and `advance` continues the traversal with exactly
`reflect (nodeVal g p q) d` whenever it enters a node `q` holding a
mirror code. -/
theorem c7_reflection_rule :
    (reflect MIRROR_FORWARD .down = .left ∧ reflect MIRROR_FORWARD .left = .down ∧
     reflect MIRROR_FORWARD .right = .up ∧ reflect MIRROR_FORWARD .up = .right) ∧
    (reflect MIRROR_BACKWARD .down = .right ∧ reflect MIRROR_BACKWARD .left = .up ∧
     reflect MIRROR_BACKWARD .right = .down ∧ reflect MIRROR_BACKWARD .up = .left) ∧
    (∀ d, reflect MIRROR_NONE d = d) ∧
    (∀ d, reflect MIRROR_STRAIGHT d = d) ∧
    (∀ (G fuel : Nat) (g p : List Int) (n : Node) (d : Dir) (q : Node),
      neighbor G n d = some q → nodeVal g p q < 0 →
      advance G (fuel + 1) g p n d =
        match advance G fuel g p q (reflect (nodeVal g p q) d) with
        | none => none
        | some (t, g', p') =>
          match q with
          | .cell i => some (t, g'.set i (rotateMirror (getv g' i)), p')
          | .peri i => some (t, g', p'.set i (rotateMirror (getv p' i)))) := by
  refine ⟨⟨by decide, by decide, by decide, by decide⟩,
    ⟨by decide, by decide, by decide, by decide⟩,
    fun d => by cases d <;> decide, fun d => by cases d <;> decide, ?_⟩
  intro G fuel g p n d q h1 h2
  simp only [advance, h1]
  rw [if_pos h2]

/-- C7 witness: the unfolding clause applied at a concrete interior step
(grid of one NONE and three mirrors, entry at top slot 0 going down into
cell 0, which holds the mirror code `-1 < 0`). -/
theorem c7_reflection_rule_witness :
    advance 2 17 [-1, -4, -4, -2] [10, 11, 12, 13, 14, 15, 16, 17] (.peri 0) .down =
      match advance 2 16 [-1, -4, -4, -2] [10, 11, 12, 13, 14, 15, 16, 17] (.cell 0)
          (reflect (nodeVal [-1, -4, -4, -2] [10, 11, 12, 13, 14, 15, 16, 17] (.cell 0)) .down) with
      | none => none
      | some (t, g', p') =>
        match (Node.cell 0) with
        | .cell i => some (t, g'.set i (rotateMirror (getv g' i)), p')
        | .peri i => some (t, g', p'.set i (rotateMirror (getv p' i))) :=
  c7_reflection_rule.2.2.2.2 2 16 [-1, -4, -4, -2] [10, 11, 12, 13, 14, 15, 16, 17]
    (.peri 0) .down (.cell 0) (by decide) (by decide)

/-! ## C8: the mirror rotation period -/

/-- C8: each pass through an interior mirror cell advances it by one step
of the period-3 rotation FORWARD→STRAIGHT→BACKWARD→FORWARD (that is the
update `advance` applies after its recursive call), so three rotations
return any mirror code to itself, and a NONE cell is invariant under any
number of rotations. -/
theorem c8_rotation_period :
    rotateMirror MIRROR_FORWARD = MIRROR_STRAIGHT ∧
    rotateMirror MIRROR_STRAIGHT = MIRROR_BACKWARD ∧
    rotateMirror MIRROR_BACKWARD = MIRROR_FORWARD ∧
    rotateMirror (rotateMirror (rotateMirror MIRROR_FORWARD)) = MIRROR_FORWARD ∧
    rotateMirror (rotateMirror (rotateMirror MIRROR_STRAIGHT)) = MIRROR_STRAIGHT ∧
    rotateMirror (rotateMirror (rotateMirror MIRROR_BACKWARD)) = MIRROR_BACKWARD ∧
    ∀ n : Nat, rotateMirror^[n] MIRROR_NONE = MIRROR_NONE := by
  refine ⟨by decide, by decide, by decide, by decide, by decide, by decide, ?_⟩
  intro n
  exact Function.iterate_fixed (by decide) n

/-! ## C3: behaviour on a byte outside the current alphabet -/

/-- C3 counterexample: for a byte absent from the current field's perimeter
(byte 99 against the alphabet 0..7) the start-node search comes back empty
and `mirrorfield_crypt_char` has no defined outcome at all (`none` models
the C code dereferencing the still-NULL `startnode`).  The claim that the
lookup failure is a defined outcome surfaced distinctly to the caller is
therefore false: the `unsigned char` return type has no error channel and
the no-match case is never tested. -/
theorem c3_lookup_counterexample :
    findVal [0, 1, 2, 3, 4, 5, 6, 7] (99 : Int) = none ∧
    cryptChar 2 1
      { grid := [[-1, -1, -1, -1]], perim := [[0, 1, 2, 3, 4, 5, 6, 7]],
        m := 0, g1 := 0, g2 := 4, c := 0, loadPos := 0 } 99 = none := by
  constructor
  · decide
  · decide

/-- C3 (amended): `mirrorfield_crypt_char` contains no error branch for an
input byte that no perimeter slot of the current field holds: the search
loop simply leaves `startnode` NULL and the following direction selection
dereferences it — undefined behaviour (modelled as `none`), not an error
value surfaced to the caller. -/
theorem c3_lookup_no_error_branch (G MFC : Nat) (st : EngineState) (ch : Nat)
    (h : findVal (st.perim.getD st.m []) (ch : Int) = none) :
    cryptChar G MFC st ch = none := by
  simp only [cryptChar, h]

/-- C3 witness: the amended statement applied to the concrete engine and
byte of the counterexample, with the empty search discharged by `decide`. -/
theorem c3_lookup_no_error_branch_witness :
    cryptChar 3 1
      { grid := [List.replicate 9 (-1)], perim := [[0, 1, 2, 3, 4, 5, 6, 7, 8, 9, 10, 11]],
        m := 0, g1 := 0, g2 := 6, c := 0, loadPos := 0 } 200 = none :=
  c3_lookup_no_error_branch 3 1
    { grid := [List.replicate 9 (-1)], perim := [[0, 1, 2, 3, 4, 5, 6, 7, 8, 9, 10, 11]],
      m := 0, g1 := 0, g2 := 6, c := 0, loadPos := 0 } 200 (by decide)

/-! ## C5: the rotate-order comparison of mirrorfield_roll_chars -/

/-- C5: the rolling step decides the rotate order by comparing the values
stored at perimeter positions indexed by the raw character codes `s` and
`e` themselves (`perimeter[m][s].value > perimeter[m][e].value`), not by
locating the slots currently holding `s` and `e`; that indexed read is
well-defined only for `s, e < 4*GRID_SIZE`, and outside that range the
access is out of bounds (modelled as `none`; the C code has no guard).
The final conjunct exhibits a perimeter where the indexed comparison and
the plain value comparison choose opposite orders and produce different
results, so the two readings are genuinely different. -/
theorem c5_roll_order (G MFC : Nat) (pm : List Int) (g1 g2 c s e : Nat) :
    (s < 4 * G → e < 4 * G →
      rollChars G MFC pm g1 g2 c s e =
        if getv pm s > getv pm e then rollApply G MFC pm g1 g2 c (s : Int) (e : Int)
        else rollApply G MFC pm g1 g2 c (e : Int) (s : Int)) ∧
    (4 * G ≤ s ∨ 4 * G ≤ e → rollChars G MFC pm g1 g2 c s e = none) ∧
    (rollChars 1 1 [2, 0, 3, 1] 0 2 0 0 1 = some ([0, 2, 1, 3], 1, 3, 0) ∧
     rollApply 1 1 [2, 0, 3, 1] 0 2 0 (1 : Int) (0 : Int) = some ([1, 3, 0, 2], 1, 3, 0) ∧
     rollChars 1 1 [2, 0, 3, 1] 0 2 0 0 1 ≠ rollApply 1 1 [2, 0, 3, 1] 0 2 0 (1 : Int) (0 : Int)) := by
  refine ⟨fun hs he => ?_, fun h => ?_, by decide, by decide, by decide⟩
  · rw [rollChars, if_pos ⟨hs, he⟩]
  · rw [rollChars, if_neg (by omega)]

/-- C5 witness: the in-range clause at the identity perimeter (both swaps
observable) and the out-of-range clause at `s = 300`. -/
theorem c5_roll_order_witness :
    (rollChars 2 1 [0, 1, 2, 3, 4, 5, 6, 7] 0 4 0 0 4 =
      if getv [0, 1, 2, 3, 4, 5, 6, 7] 0 > getv [0, 1, 2, 3, 4, 5, 6, 7] 4 then
        rollApply 2 1 [0, 1, 2, 3, 4, 5, 6, 7] 0 4 0 (0 : Int) (4 : Int)
      else rollApply 2 1 [0, 1, 2, 3, 4, 5, 6, 7] 0 4 0 (4 : Int) (0 : Int)) ∧
    rollChars 2 1 [0, 1, 2, 3, 4, 5, 6, 7] 0 4 0 300 4 = none :=
  ⟨(c5_roll_order 2 1 [0, 1, 2, 3, 4, 5, 6, 7] 0 4 0 0 4).1 (by decide) (by decide),
   (c5_roll_order 2 1 [0, 1, 2, 3, 4, 5, 6, 7] 0 4 0 300 4).2.1 (Or.inl (by decide))⟩

/-! ## C6: roll-window cadence -/

/-- C6: the roll-window indices `g1`/`g2` change exactly once per
`MIRROR_FIELD_COUNT` calls of the rolling step: starting a round with
`c = 0`, the first `MFC - 1` calls leave `g1`/`g2` unchanged and only
advance `c`, the `MFC`-th call advances both by exactly one position
modulo `4*GRID_SIZE` and resets `c` to 0; and every successful
`rollChars` call updates the window by exactly `windowStep`. -/
theorem c6_window_cadence (G MFC : Nat) (g1 g2 : Nat) (hM : 0 < MFC) :
    (∀ k, k < MFC → windowIter G MFC k (g1, g2, 0) = (g1, g2, k)) ∧
    windowIter G MFC MFC (g1, g2, 0) = ((g1 + 1) % (4 * G), (g2 + 1) % (4 * G), 0) ∧
    (∀ (pm : List Int) (w1 w2 wc s e : Nat) (pm2 : List Int) (w : Nat × Nat × Nat),
      rollChars G MFC pm w1 w2 wc s e = some (pm2, w) →
      w = windowStep G MFC w1 w2 wc) := by
  have hstay : ∀ k, k < MFC → windowIter G MFC k (g1, g2, 0) = (g1, g2, k) := by
    intro k
    induction k with
    | zero => intro _; rfl
    | succ k2 ih =>
      intro hk
      have h2 := ih (by omega)
      simp only [windowIter, h2, windowStep]
      rw [if_neg (by omega)]
  refine ⟨hstay, ?_, ?_⟩
  · obtain ⟨n, rfl⟩ : ∃ n, MFC = n + 1 := ⟨MFC - 1, by omega⟩
    simp only [windowIter, hstay n (by omega), windowStep]
    simp
  · intro pm w1 w2 wc s e pm2 w h
    rw [rollChars] at h
    split at h
    · split at h <;>
      · rw [rollApply] at h
        split at h
        · exact absurd h (by simp)
        · dsimp only at h
          split at h
          · exact absurd h (by simp)
          · rw [Option.some_inj] at h
            exact (congrArg Prod.snd h).symm
    · exact absurd h (by simp)

/-- C6 witness: with `MFC = 2` the window stays at `(0, 2)` after one call
and advances to `(1, 3)` with `c` reset after the second; the concrete
`rollChars` run returns exactly `windowStep`'s window. -/
theorem c6_window_cadence_witness :
    windowIter 1 2 1 (0, 2, 0) = (0, 2, 1) ∧
    windowIter 1 2 2 (0, 2, 0) = (1, 3, 0) ∧
    (0, 2, 1) = windowStep 1 2 0 2 0 :=
  ⟨(c6_window_cadence 1 2 0 2 (by decide)).1 1 (by decide),
   (c6_window_cadence 1 2 0 2 (by decide)).2.1,
   (c6_window_cadence 1 2 0 2 (by decide)).2.2 [2, 0, 3, 1] 0 2 0 0 1 [0, 2, 1, 3]
     (0, 2, 1) (by decide)⟩

/-! ## C10: the two roll-window indices stay diametrically opposite -/

/-- C10: `g1` starts at 0 and `g2` at `2*GRID_SIZE`, so the invariant
`g2 = (g1 + 2*GRID_SIZE) mod (4*GRID_SIZE)` holds in the fresh state, and
one application of the window update of the rolling step preserves it
(both indices either stay put or advance together by one, modulo
`4*GRID_SIZE`). -/
theorem c10_window_opposite (G MFC : Nat) (g1 g2 c : Nat) (hG : 0 < G)
    (h : g2 = (g1 + 2 * G) % (4 * G)) :
    ((freshEngine G MFC).g1 = 0 ∧
     (freshEngine G MFC).g2 = ((freshEngine G MFC).g1 + 2 * G) % (4 * G)) ∧
    (windowStep G MFC g1 g2 c).2.1 =
      ((windowStep G MFC g1 g2 c).1 + 2 * G) % (4 * G) := by
  constructor
  · refine ⟨rfl, ?_⟩
    show G * 2 = (0 + 2 * G) % (4 * G)
    rw [Nat.zero_add, Nat.mod_eq_of_lt (by omega)]
    omega
  · rw [windowStep]
    split
    · show (g2 + 1) % (4 * G) = ((g1 + 1) % (4 * G) + 2 * G) % (4 * G)
      rw [h, Nat.mod_add_mod, Nat.mod_add_mod]
      congr 1
      omega
    · exact h

/-- C10 witness: the invariant instance `g2 = 5 = (1 + 4) % 8` for
`G = 2` is preserved by one window update (which advances to
`(2, 6)` since `c + 1 = MFC`). -/
theorem c10_window_opposite_witness :
    ((freshEngine 2 1).g1 = 0 ∧
     (freshEngine 2 1).g2 = ((freshEngine 2 1).g1 + 2 * 2) % (4 * 2)) ∧
    (windowStep 2 1 1 5 0).2.1 = ((windowStep 2 1 1 5 0).1 + 2 * 2) % (4 * 2) :=
  c10_window_opposite 2 1 1 5 0 (by decide) (by decide)

/-! ## C1: the output-selection rule of mirrorfield_crypt_char -/

/-- C1: whenever the start slot is found, the traversal returns, and the
rolling step succeeds, the byte returned by `mirrorfield_crypt_char` is
determined by the output-selection rule: with `sv` the entry slot's value
and `ev` the exit slot's value (both read before rolling) and
`k = (ev + sv) mod (4*GRID_SIZE)`, the result is `sv` exactly when the
post-roll perimeter slot `k` holds the value `k`, and `ev` otherwise. -/
theorem c1_output_selection (G MFC : Nat) (st : EngineState) (ch si : Nat) (d : Dir)
    (en : Node) (g2 p2 pm3 : List Int) (w : Nat × Nat × Nat)
    (h1 : findVal (st.perim.getD st.m []) (ch : Int) = some si)
    (h2 : initialDir G (.peri si) = some d)
    (h3 : advance G (4 * G * G + 1) (st.grid.getD st.m []) (st.perim.getD st.m [])
        (.peri si) d = some (en, g2, p2))
    (h4 : rollChars G MFC p2 st.g1 st.g2 st.c (uchar (getv p2 si))
        (uchar (nodeVal g2 p2 en)) = some (pm3, w)) :
    (cryptChar G MFC st ch).map Prod.fst =
      some
        (if getv pm3 ((uchar (nodeVal g2 p2 en) + uchar (getv p2 si)) % (4 * G)) =
            (((uchar (nodeVal g2 p2 en) + uchar (getv p2 si)) % (4 * G) : Nat) : Int)
         then uchar (getv p2 si)
         else uchar (nodeVal g2 p2 en)) := by
  simp only [cryptChar, h1, h2, h3, h4, Option.map_some']

/-- C1 witness: the rule applied to the all-NONE 2×2 field with the
identity alphabet 0..7 and input byte 0: the traversal exits at slot 4,
the post-roll perimeter is `[4, 1, 2, 3, 0, 5, 6, 7]`, slot `k = 4` holds
0 ≠ 4, and the returned byte is `ev = 4`. -/
theorem c1_output_selection_witness :
    (cryptChar 2 1
        { grid := [[-1, -1, -1, -1]], perim := [[0, 1, 2, 3, 4, 5, 6, 7]],
          m := 0, g1 := 0, g2 := 4, c := 0, loadPos := 0 } 0).map Prod.fst =
      some
        (if getv [4, 1, 2, 3, 0, 5, 6, 7]
              ((uchar (nodeVal [-1, -1, -1, -1] [0, 1, 2, 3, 4, 5, 6, 7] (.peri 4)) +
                 uchar (getv [0, 1, 2, 3, 4, 5, 6, 7] 0)) % (4 * 2)) =
            (((uchar (nodeVal [-1, -1, -1, -1] [0, 1, 2, 3, 4, 5, 6, 7] (.peri 4)) +
                 uchar (getv [0, 1, 2, 3, 4, 5, 6, 7] 0)) % (4 * 2) : Nat) : Int)
         then uchar (getv [0, 1, 2, 3, 4, 5, 6, 7] 0)
         else uchar (nodeVal [-1, -1, -1, -1] [0, 1, 2, 3, 4, 5, 6, 7] (.peri 4))) :=
  c1_output_selection 2 1
    { grid := [[-1, -1, -1, -1]], perim := [[0, 1, 2, 3, 4, 5, 6, 7]],
      m := 0, g1 := 0, g2 := 4, c := 0, loadPos := 0 } 0 0 .down
    (.peri 4) [-1, -1, -1, -1] [0, 1, 2, 3, 4, 5, 6, 7] [4, 1, 2, 3, 0, 5, 6, 7]
    (1, 5, 0) (by decide) (by decide) (by decide) (by decide)

/-! ## Topology lemmas -/

theorem div_lt_self_of_lt_sq (G i : Nat) (_hG : 0 < G) (h : i < G * G) :
    i / G < G := by
  have hdm := Nat.div_add_mod i G
  by_contra hc
  push_neg at hc
  have := Nat.mul_le_mul_left G hc
  omega

theorem pred_mul_self (G : Nat) (hG : 0 < G) : (G - 1) * G + G = G * G := by
  have h : (G - 1 + 1) * G = (G - 1) * G + G := Nat.succ_mul (G - 1) G
  rw [Nat.sub_add_cancel hG] at h
  omega

theorem nbr_wf (G : Nat) (hG : 0 < G) (n : Node) (d : Dir) (q : Node)
    (hn : n.wf G) (h : neighbor G n d = some q) : q.wf G := by
  have hGG : G ≤ G * G := Nat.le_mul_of_pos_left G hG
  cases n with
  | peri i =>
    simp only [Node.wf] at hn
    cases d with
    | up =>
      simp only [neighbor, nbUp] at h
      split at h
      · rw [Option.some_inj] at h
        subst h
        simp only [Node.wf]
        omega
      · simp at h
    | down =>
      simp only [neighbor, nbDown] at h
      split at h
      · rw [Option.some_inj] at h
        subst h
        simp only [Node.wf]
        omega
      · simp at h
    | left =>
      simp only [neighbor, nbLeft] at h
      split at h
      · rw [Option.some_inj] at h
        subst h
        simp only [Node.wf]
        rename_i hcond
        have h1 : i - G ≤ G - 1 := by omega
        have h2 : (i - G) * G ≤ (G - 1) * G := Nat.mul_le_mul_right G h1
        have h3 := pred_mul_self G hG
        omega
      · simp at h
    | right =>
      simp only [neighbor, nbRight] at h
      split at h
      · rw [Option.some_inj] at h
        subst h
        simp only [Node.wf]
        rename_i hcond
        have h1 : i - 3 * G ≤ G - 1 := by omega
        have h2 : (i - 3 * G) * G ≤ (G - 1) * G := Nat.mul_le_mul_right G h1
        have h3 := pred_mul_self G hG
        omega
      · simp at h
  | cell i =>
    simp only [Node.wf] at hn
    cases d with
    | up =>
      simp only [neighbor, nbUp] at h
      split at h
      · rw [Option.some_inj] at h
        subst h
        simp only [Node.wf]
        omega
      · rw [Option.some_inj] at h
        subst h
        simp only [Node.wf]
        omega
    | down =>
      simp only [neighbor, nbDown] at h
      split at h
      · rw [Option.some_inj] at h
        subst h
        simp only [Node.wf]
        omega
      · rw [Option.some_inj] at h
        subst h
        simp only [Node.wf]
        have hm : i % G < G := Nat.mod_lt _ hG
        omega
    | left =>
      simp only [neighbor, nbLeft] at h
      split at h
      · split at h
        · rw [Option.some_inj] at h
          subst h
          simp only [Node.wf]
          have hdiv := div_lt_self_of_lt_sq G i hG hn
          omega
        · rw [Option.some_inj] at h
          subst h
          simp only [Node.wf]
          omega
      · exact absurd hn (by assumption)
    | right =>
      simp only [neighbor, nbRight] at h
      split at h
      · split at h
        · rw [Option.some_inj] at h
          subst h
          simp only [Node.wf]
          rename_i hcol
          have hdm := Nat.div_add_mod i G
          have hdiv := div_lt_self_of_lt_sq G i hG hn
          have hmul : G * (i / G + 1) ≤ G * G := Nat.mul_le_mul_left G (by omega)
          have hms : G * (i / G + 1) = G * (i / G) + G := Nat.mul_succ G (i / G)
          omega
        · rw [Option.some_inj] at h
          subst h
          simp only [Node.wf]
          have hdiv := div_lt_self_of_lt_sq G i hG hn
          omega
      · exact absurd hn (by assumption)

theorem advance_perim_unchanged (G : Nat) (hG : 0 < G) :
    ∀ (fuel : Nat) (g p : List Int) (n : Node) (d : Dir) (t : Node) (g2 p2 : List Int),
    n.wf G → (∀ i, i < 4 * G → 0 ≤ getv p i) →
    advance G fuel g p n d = some (t, g2, p2) → p2 = p := by
  intro fuel
  induction fuel with
  | zero =>
    intro g p n d t g2 p2 _ _ h
    simp [advance] at h
  | succ f ih =>
    intro g p n d t g2 p2 hwf hp h
    simp only [advance] at h
    cases hq : neighbor G n d with
    | none => rw [hq] at h; simp at h
    | some q =>
      rw [hq] at h
      dsimp only at h
      have hqwf := nbr_wf G hG n d q hwf hq
      by_cases hneg : nodeVal g p q < 0
      · rw [if_pos hneg] at h
        cases q with
        | peri j =>
          exfalso
          have hj : j < 4 * G := by simpa [Node.wf] using hqwf
          have := hp j hj
          simp only [nodeVal] at hneg
          omega
        | cell j =>
          cases hrec : advance G f g p (.cell j) (reflect (nodeVal g p (.cell j)) d) with
          | none => rw [hrec] at h; simp at h
          | some r =>
            rw [hrec] at h
            obtain ⟨t2, g3, p3⟩ := r
            have hp3 : p3 = p := ih g p (.cell j) _ t2 g3 p3 hqwf hp hrec
            dsimp only at h
            rw [Option.some_inj] at h
            injection h with ha hb
            injection hb with hc hd
            rw [← hd]
            exact hp3
      · rw [if_neg hneg] at h
        rw [Option.some_inj] at h
        injection h with ha hb
        injection hb with hc hd
        rw [← hd]

theorem rollChars_perm (G MFC : Nat) (pm : List Int) (g1 g2 c s e : Nat)
    (pm2 : List Int) (w : Nat × Nat × Nat)
    (hlen : pm.length = 4 * G) (hg1 : g1 < 4 * G) (hg2 : g2 < 4 * G)
    (h : rollChars G MFC pm g1 g2 c s e = some (pm2, w)) : pm2.Perm pm := by
  have key : ∀ (x1 x2 : Int), rollApply G MFC pm g1 g2 c x1 x2 = some (pm2, w) →
      pm2.Perm pm := by
    intro x1 x2 hr
    rw [rollApply] at hr
    cases hf1 : findVal pm x1 with
    | none => rw [hf1] at hr; simp at hr
    | some i1 =>
      rw [hf1] at hr
      dsimp only at hr
      cases hf2 : findVal (listSwap pm i1 g1) x2 with
      | none => rw [hf2] at hr; simp at hr
      | some i2 =>
        rw [hf2] at hr
        rw [Option.some_inj] at hr
        have hi1 : i1 < pm.length := findVal_lt pm x1 i1 hf1
        have hi2 : i2 < pm.length := by
          have := findVal_lt _ x2 i2 hf2
          rwa [listSwap_length] at this
        have hpm2 : pm2 = listSwap (listSwap pm i1 g1) i2 g2 :=
          (congrArg Prod.fst hr).symm
        rw [hpm2]
        refine (listSwap_perm _ i2 g2 ?_ ?_).trans (listSwap_perm pm i1 g1 hi1 (by omega))
        · rwa [listSwap_length]
        · rw [listSwap_length]; omega
  rw [rollChars] at h
  split at h
  · split at h
    · exact key _ _ h
    · exact key _ _ h
  · simp at h

/-! ## C9: the rolling step permutes each field's alphabet -/

/-- C9: any successful `mirrorfield_crypt_char` call leaves the multiset of
perimeter slot values of every field unchanged — the traversal never
writes a perimeter slot (it only rotates cells holding negative mirror
codes, and a valid perimeter is non-negative), and the rolling step is
exactly two in-range value swaps within the current field's perimeter —
so each field's alphabet keeps the same values and only their positions
change. -/
theorem c9_perimeter_multiset (G MFC : Nat) (st : EngineState) (ch rv : Nat)
    (st2 : EngineState) (hG : 0 < G)
    (hlen : (st.perim.getD st.m []).length = 4 * G)
    (hpm : ∀ i, i < 4 * G → 0 ≤ getv (st.perim.getD st.m []) i)
    (hg1 : st.g1 < 4 * G) (hg2 : st.g2 < 4 * G)
    (h : cryptChar G MFC st ch = some (rv, st2)) :
    ∀ j, (st2.perim.getD j []).Perm (st.perim.getD j []) := by
  simp only [cryptChar] at h
  cases hfind : findVal (st.perim.getD st.m []) (ch : Int) with
  | none => rw [hfind] at h; simp at h
  | some si =>
    rw [hfind] at h
    dsimp only at h
    cases hdir : initialDir G (.peri si) with
    | none => rw [hdir] at h; simp at h
    | some d =>
      rw [hdir] at h
      dsimp only at h
      cases hadv : advance G (4 * G * G + 1) (st.grid.getD st.m [])
          (st.perim.getD st.m []) (.peri si) d with
      | none => rw [hadv] at h; simp at h
      | some r =>
        rw [hadv] at h
        obtain ⟨en, g3, p3⟩ := r
        dsimp only at h
        have hsi : si < 4 * G := by
          have := findVal_lt _ _ _ hfind
          omega
        have hp3 : p3 = st.perim.getD st.m [] :=
          advance_perim_unchanged G hG _ _ _ (.peri si) d en g3 p3
            (by simp [Node.wf]; omega) hpm hadv
        cases hroll : rollChars G MFC p3 st.g1 st.g2 st.c (uchar (getv p3 si))
            (uchar (nodeVal g3 p3 en)) with
        | none => rw [hroll] at h; simp at h
        | some rr =>
          rw [hroll] at h
          obtain ⟨pm3, w⟩ := rr
          dsimp only at h
          rw [Option.some_inj] at h
          have hperm : pm3.Perm (st.perim.getD st.m []) := by
            rw [← hp3]
            exact rollChars_perm G MFC p3 st.g1 st.g2 st.c _ _ pm3 w
              (by rw [hp3]; exact hlen) hg1 hg2 hroll
          have hst2 : st2.perim = st.perim.set st.m pm3 := by
            have h2 := congrArg Prod.snd h
            dsimp only at h2
            rw [← h2]
          intro j
          rw [hst2, getD_set_lists]
          split
          · next hc => exact hc.1 ▸ hperm
          · exact List.Perm.refl _

/-- C9 witness: one concrete call on the all-NONE 2×2 field with alphabet
0..7 rearranges field 0's perimeter to `[4, 1, 2, 3, 0, 5, 6, 7]`, a
permutation of the original alphabet. -/
theorem c9_perimeter_multiset_witness :
    (([[4, 1, 2, 3, 0, 5, 6, 7]] : List (List Int)).getD 0 []).Perm
      (([[0, 1, 2, 3, 4, 5, 6, 7]] : List (List Int)).getD 0 []) :=
  c9_perimeter_multiset 2 1
    { grid := [[-1, -1, -1, -1]], perim := [[0, 1, 2, 3, 4, 5, 6, 7]],
      m := 0, g1 := 0, g2 := 4, c := 0, loadPos := 0 } 0 4
    { grid := [[-1, -1, -1, -1]], perim := [[4, 1, 2, 3, 0, 5, 6, 7]],
      m := 0, g1 := 1, g2 := 5, c := 0, loadPos := 0 }
    (by decide) (by decide) (by decide) (by decide) (by decide) (by decide) 0

theorem reflect_inj (v : Int) (d1 d2 : Dir) (h : reflect v d1 = reflect v d2) :
    d1 = d2 := by
  simp only [reflect] at h
  by_cases h1 : v = MIRROR_FORWARD
  · rw [if_pos h1, if_pos h1] at h
    cases d1 <;> cases d2 <;> simp_all
  · by_cases h2 : v = MIRROR_BACKWARD
    · rw [if_neg h1, if_neg h1, if_pos h2, if_pos h2] at h
      cases d1 <;> cases d2 <;> simp_all
    · rw [if_neg h1, if_neg h1, if_neg h2, if_neg h2] at h
      exact h

theorem nbDown_src (G : Nat) (n : Node) (j : Nat)
    (h : nbDown G n = some (.cell j)) :
    (n = .peri j ∧ j < G) ∨ (n = .cell (j - G) ∧ G ≤ j ∧ j < G * G) := by
  cases n with
  | peri a =>
    simp only [nbDown] at h
    split at h
    · rw [Option.some_inj] at h
      injection h with h2
      subst h2
      exact Or.inl ⟨rfl, by assumption⟩
    · simp at h
  | cell a =>
    simp only [nbDown] at h
    split at h
    · rw [Option.some_inj] at h
      injection h with h2
      rename_i hc
      refine Or.inr ⟨?_, by omega, by omega⟩
      have ha : a = j - G := by omega
      rw [ha]
    · split at h
      · simp at h
      · simp at h

theorem nbUp_src (G : Nat) (hG : 0 < G) (n : Node) (j : Nat)
    (h : nbUp G n = some (.cell j)) :
    (n = .cell (j + G) ∧ j + G < G * G) ∨
    (n = .peri (j - (G * G - G) + 2 * G) ∧ G * G - G ≤ j ∧ j < G * G) := by
  have hle : G ≤ G * G := Nat.le_mul_of_pos_left G hG
  cases n with
  | peri a =>
    simp only [nbUp] at h
    split at h
    · rw [Option.some_inj] at h
      injection h with h2
      rename_i hc
      refine Or.inr ⟨?_, by omega, by omega⟩
      have ha : a = j - (G * G - G) + 2 * G := by omega
      rw [ha]
    · simp at h
  | cell a =>
    simp only [nbUp] at h
    split at h
    · simp at h
    · split at h
      · rw [Option.some_inj] at h
        injection h with h2
        rename_i hge hin
        refine Or.inl ⟨?_, by omega⟩
        have ha : a = j + G := by omega
        rw [ha]
      · simp at h

theorem mod_succ_eq (G a : Nat) (h : a % G + 1 < G) : (a + 1) % G = a % G + 1 := by
  have hd := Nat.div_add_mod a G
  have hd2 : (a / G) * G = G * (a / G) := Nat.mul_comm _ _
  have key : a + 1 = (a % G + 1) + (a / G) * G := by omega
  rw [key, Nat.add_mul_mod_self_right]
  exact Nat.mod_eq_of_lt h

theorem mod_pred_eq (G a : Nat) (hG : 0 < G) (h : a % G ≠ 0) : (a - 1) % G = a % G - 1 := by
  have hd := Nat.div_add_mod a G
  have hm : a % G < G := Nat.mod_lt _ hG
  have hd2 : (a / G) * G = G * (a / G) := Nat.mul_comm _ _
  have key : a - 1 = (a % G - 1) + (a / G) * G := by omega
  rw [key, Nat.add_mul_mod_self_right]
  exact Nat.mod_eq_of_lt (by omega)

theorem nbRight_src (G : Nat) (hG : 0 < G) (n : Node) (j : Nat)
    (h : nbRight G n = some (.cell j)) :
    (n = .peri (j / G + 3 * G) ∧ j % G = 0 ∧ j < G * G) ∨
    (n = .cell (j - 1) ∧ 1 ≤ j ∧ j % G ≠ 0 ∧ j - 1 < G * G) := by
  cases n with
  | peri a =>
    simp only [nbRight] at h
    split at h
    · rw [Option.some_inj] at h
      injection h with h2
      rename_i hc
      have hj : j = (a - 3 * G) * G := h2.symm
      have hmod : j % G = 0 := by rw [hj]; exact Nat.mul_mod_left _ _
      have hdiv : j / G = a - 3 * G := by rw [hj]; exact Nat.mul_div_cancel _ hG
      have hlt : a - 3 * G ≤ G - 1 := by omega
      have hmul : (a - 3 * G) * G ≤ (G - 1) * G := Nat.mul_le_mul_right G hlt
      have hpre := pred_mul_self G hG
      refine Or.inl ⟨?_, hmod, by omega⟩
      have ha : a = j / G + 3 * G := by omega
      rw [ha]
    · simp at h
  | cell a =>
    simp only [nbRight] at h
    split at h
    · split at h
      · rw [Option.some_inj] at h
        injection h with h2
        rename_i hin hcol
        have hsucc := mod_succ_eq G a hcol
        have ha : a = j - 1 := by omega
        refine Or.inr ⟨by rw [ha], by omega, ?_, by omega⟩
        rw [← h2]
        omega
      · simp at h
    · simp at h

theorem nbLeft_src (G : Nat) (hG : 0 < G) (n : Node) (j : Nat)
    (h : nbLeft G n = some (.cell j)) :
    (n = .peri (j / G + G) ∧ j % G = G - 1 ∧ j < G * G) ∨
    (n = .cell (j + 1) ∧ j % G ≠ G - 1 ∧ j + 1 < G * G) := by
  cases n with
  | peri a =>
    simp only [nbLeft] at h
    split at h
    · rw [Option.some_inj] at h
      injection h with h2
      rename_i hc
      have hj : j = (a - G) * G + (G - 1) := h2.symm
      have hcomm : j = (G - 1) + (a - G) * G := by omega
      have hmod : j % G = G - 1 := by
        rw [hcomm, Nat.add_mul_mod_self_right]
        exact Nat.mod_eq_of_lt (by omega)
      have hdiv : j / G = a - G := by
        rw [hcomm, Nat.add_mul_div_right _ _ hG, Nat.div_eq_of_lt (by omega), Nat.zero_add]
      have hlt : a - G ≤ G - 1 := by omega
      have hmul : (a - G) * G ≤ (G - 1) * G := Nat.mul_le_mul_right G hlt
      have hpre := pred_mul_self G hG
      refine Or.inl ⟨?_, hmod, by omega⟩
      have ha : a = j / G + G := by omega
      rw [ha]
    · simp at h
  | cell a =>
    simp only [nbLeft] at h
    split at h
    · split at h
      · simp at h
      · rw [Option.some_inj] at h
        injection h with h2
        rename_i hin hcol
        have hml := Nat.mod_le a G
        have hm : a % G < G := Nat.mod_lt _ hG
        have hpred := mod_pred_eq G a hG hcol
        have ha : a = j + 1 := by omega
        refine Or.inr ⟨by rw [ha], ?_, by omega⟩
        rw [← h2]
        omega
    · simp at h

theorem nbr_inj_cell (G : Nat) (hG : 0 < G) (d : Dir) (j : Nat) (n1 n2 : Node)
    (h1 : neighbor G n1 d = some (.cell j)) (h2 : neighbor G n2 d = some (.cell j)) :
    n1 = n2 := by
  cases d with
  | down =>
    simp only [neighbor] at h1 h2
    rcases nbDown_src G n1 j h1 with ⟨e1, c1⟩ | ⟨e1, c1, c1b⟩ <;>
      rcases nbDown_src G n2 j h2 with ⟨e2, c2⟩ | ⟨e2, c2, c2b⟩
    · rw [e1, e2]
    · exfalso; omega
    · exfalso; omega
    · rw [e1, e2]
  | up =>
    simp only [neighbor] at h1 h2
    rcases nbUp_src G hG n1 j h1 with ⟨e1, c1⟩ | ⟨e1, c1, c1b⟩ <;>
      rcases nbUp_src G hG n2 j h2 with ⟨e2, c2⟩ | ⟨e2, c2, c2b⟩
    · rw [e1, e2]
    · exfalso; omega
    · exfalso; omega
    · rw [e1, e2]
  | right =>
    simp only [neighbor] at h1 h2
    rcases nbRight_src G hG n1 j h1 with ⟨e1, c1, c1b⟩ | ⟨e1, c1, c1b, c1c⟩ <;>
      rcases nbRight_src G hG n2 j h2 with ⟨e2, c2, c2b⟩ | ⟨e2, c2, c2b, c2c⟩
    · rw [e1, e2]
    · exfalso; omega
    · exfalso; omega
    · rw [e1, e2]
  | left =>
    simp only [neighbor] at h1 h2
    rcases nbLeft_src G hG n1 j h1 with ⟨e1, c1, c1b⟩ | ⟨e1, c1, c1b⟩ <;>
      rcases nbLeft_src G hG n2 j h2 with ⟨e2, c2, c2b⟩ | ⟨e2, c2, c2b⟩
    · rw [e1, e2]
    · exfalso; omega
    · exfalso; omega
    · rw [e1, e2]

theorem cell_nbr_isSome (G : Nat) (_hG : 0 < G) (j : Nat) (hj : j < G * G)
    (d : Dir) : ∃ q, neighbor G (.cell j) d = some q := by
  cases d with
  | up =>
    by_cases h : j < G
    · exact ⟨.peri j, by simp [neighbor, nbUp, h]⟩
    · exact ⟨.cell (j - G), by simp [neighbor, nbUp, h, hj]⟩
  | down =>
    by_cases h : j + G < G * G
    · exact ⟨.cell (j + G), by simp [neighbor, nbDown, h]⟩
    · exact ⟨.peri (j % G + 2 * G), by simp [neighbor, nbDown, h, hj]⟩
  | left =>
    by_cases h : j % G = 0
    · exact ⟨.peri (j / G + 3 * G), by simp [neighbor, nbLeft, h, hj]⟩
    · exact ⟨.cell (j - 1), by simp [neighbor, nbLeft, h, hj]⟩
  | right =>
    by_cases h : j % G + 1 < G
    · exact ⟨.cell (j + 1), by simp [neighbor, nbRight, h, hj]⟩
    · exact ⟨.peri (j / G + G), by simp [neighbor, nbRight, h, hj]⟩

theorem initialDir_nbr (G : Nat) (n : Node) (d : Dir)
    (h : initialDir G n = some d) : ∃ q, neighbor G n d = some q := by
  rw [initialDir] at h
  split at h
  · rw [Option.some_inj] at h
    subst h
    rename_i hc
    exact Option.isSome_iff_exists.mp hc
  · split at h
    · rw [Option.some_inj] at h
      subst h
      rename_i hc
      exact Option.isSome_iff_exists.mp hc
    · split at h
      · rw [Option.some_inj] at h
        subst h
        rename_i hc
        exact Option.isSome_iff_exists.mp hc
      · split at h
        · rw [Option.some_inj] at h
          subst h
          rename_i hc
          exact Option.isSome_iff_exists.mp hc
        · simp at h

theorem orbit_succ (G : Nat) (g p : List Int) (k : Nat) (s : Node × Dir) :
    orbit G g p (k + 1) s = (orbit G g p k s).bind (rayNext G g p) := by
  induction k generalizing s with
  | zero =>
    simp only [orbit, Option.some_bind]
    cases hr : rayNext G g p s <;> simp [orbit, hr]
  | succ k2 ih =>
    simp only [orbit]
    cases hr : rayNext G g p s with
    | none => simp
    | some s2 =>
      have := ih s2
      simp only [orbit] at this
      rw [this]

theorem orbit_wf (G : Nat) (hG : 0 < G) (g p : List Int) :
    ∀ (k : Nat) (s sk : Node × Dir), s.1.wf G →
    orbit G g p k s = some sk → sk.1.wf G := by
  intro k
  induction k with
  | zero =>
    intro s sk hw h
    simp only [orbit, Option.some_inj] at h
    subst h
    exact hw
  | succ k2 ih =>
    intro s sk hw h
    simp only [orbit] at h
    cases hr : rayNext G g p s with
    | none => rw [hr] at h; simp at h
    | some s2 =>
      rw [hr] at h
      refine ih s2 sk ?_ h
      rw [rayNext] at hr
      cases hq : neighbor G s.1 s.2 with
      | none => rw [hq] at hr; simp at hr
      | some q =>
        rw [hq] at hr
        dsimp only at hr
        split at hr
        · rw [Option.some_inj] at hr
          rw [← hr]
          exact nbr_wf G hG s.1 s.2 q hw hq
        · simp at hr

theorem orbit_exit_advance (G : Nat) (g p : List Int) :
    ∀ (k : Nat) (s sk : Node × Dir) (q : Node),
    orbit G g p k s = some sk →
    neighbor G sk.1 sk.2 = some q → ¬ nodeVal g p q < 0 →
    ∀ fuel, k + 1 ≤ fuel →
    ∃ g2 p2, advance G fuel g p s.1 s.2 = some (q, g2, p2) := by
  intro k
  induction k with
  | zero =>
    intro s sk q h0 hq hv fuel hf
    simp only [orbit, Option.some_inj] at h0
    subst h0
    obtain ⟨f2, rfl⟩ : ∃ f2, fuel = f2 + 1 := ⟨fuel - 1, by omega⟩
    refine ⟨g, p, ?_⟩
    simp only [advance, hq]
    rw [if_neg hv]
  | succ k2 ih =>
    intro s sk q h0 hq hv fuel hf
    simp only [orbit] at h0
    cases hs2 : rayNext G g p s with
    | none => rw [hs2] at h0; simp at h0
    | some s2 =>
      rw [hs2] at h0
      obtain ⟨f2, rfl⟩ : ∃ f2, fuel = f2 + 1 := ⟨fuel - 1, by omega⟩
      obtain ⟨g2, p2, hadv⟩ := ih s2 sk q h0 hq hv f2 (by omega)
      rw [rayNext] at hs2
      cases hnb : neighbor G s.1 s.2 with
      | none => rw [hnb] at hs2; simp at hs2
      | some q1 =>
        rw [hnb] at hs2
        dsimp only at hs2
        split at hs2
        · rw [Option.some_inj] at hs2
          rename_i hneg
          subst hs2
          cases q1 with
          | cell i =>
            refine ⟨g2.set i (rotateMirror (getv g2 i)), p2, ?_⟩
            simp only [advance, hnb]
            rw [if_pos hneg]
            rw [hadv]
          | peri i =>
            refine ⟨g2, p2.set i (rotateMirror (getv p2 i)), ?_⟩
            simp only [advance, hnb]
            rw [if_pos hneg]
            rw [hadv]
        · simp at hs2

theorem rayNext_inj (G : Nat) (hG : 0 < G) (g p : List Int) (u v t : Node × Dir)
    (j : Nat) (ht : t.1 = .cell j)
    (h1 : rayNext G g p u = some t) (h2 : rayNext G g p v = some t) : u = v := by
  rw [rayNext] at h1 h2
  cases hq1 : neighbor G u.1 u.2 with
  | none => rw [hq1] at h1; simp at h1
  | some q1 =>
    rw [hq1] at h1
    dsimp only at h1
    split at h1
    · rw [Option.some_inj] at h1
      cases hq2 : neighbor G v.1 v.2 with
      | none => rw [hq2] at h2; simp at h2
      | some q2 =>
        rw [hq2] at h2
        dsimp only at h2
        split at h2
        · rw [Option.some_inj] at h2
          have hqa : q1 = t.1 := by rw [← h1]
          have hqb : q2 = t.1 := by rw [← h2]
          have hda : reflect (nodeVal g p q1) u.2 = t.2 := by rw [← h1]
          have hdb : reflect (nodeVal g p q2) v.2 = t.2 := by rw [← h2]
          rw [hqa] at hda
          rw [hqb] at hdb
          have hdv : u.2 = v.2 :=
            reflect_inj (nodeVal g p t.1) u.2 v.2 (by rw [hda, hdb])
          rw [hqa, ht] at hq1
          rw [hqb, ht] at hq2
          rw [hdv] at hq1
          have hn : u.1 = v.1 := nbr_inj_cell G hG v.2 j u.1 v.1 hq1 hq2
          rw [Prod.ext_iff]
          exact ⟨hn, hdv⟩
        · simp at h2
    · simp at h1

theorem dirIdx_lt (d : Dir) : dirIdx d < 4 := by
  cases d <;> simp [dirIdx]

theorem dirIdx_inj (d1 d2 : Dir) (h : dirIdx d1 = dirIdx d2) : d1 = d2 := by
  cases d1 <;> cases d2 <;> simp_all [dirIdx]

theorem encSt_cell (s : Node × Dir) (j : Nat) (h : s.1 = .cell j) :
    encSt s = 4 * j + dirIdx s.2 := by
  obtain ⟨n, d⟩ := s
  simp only at h
  subst h
  rfl

theorem orbit_chain (G : Nat) (hG : 0 < G) (g p : List Int) (s0 : Node × Dir)
    (i0 : Nat) (hs0 : s0.1 = .peri i0) (N : Nat)
    (hf : ∀ k, k ≤ N + 1 → orbit G g p k s0 = some ((orbit G g p k s0).getD s0))
    (hfc : ∀ k, 1 ≤ k → k ≤ N + 1 →
      ∃ j, j < G * G ∧ ((orbit G g p k s0).getD s0).1 = .cell j) :
    ∀ a b, a ≤ b → b ≤ N + 1 →
      (orbit G g p a s0).getD s0 = (orbit G g p b s0).getD s0 → a = b := by
  intro a
  induction a with
  | zero =>
    intro b hab hb he
    by_contra hne
    have hb1 : 1 ≤ b := by omega
    obtain ⟨j, hj, hc⟩ := hfc b hb1 hb
    have h0 : (orbit G g p 0 s0).getD s0 = s0 := rfl
    rw [h0] at he
    rw [← he] at hc
    rw [hs0] at hc
    simp at hc
  | succ a3 ih =>
    intro b hab hb he
    obtain ⟨b3, rfl⟩ : ∃ b3, b = b3 + 1 := ⟨b - 1, by omega⟩
    have hra : rayNext G g p ((orbit G g p a3 s0).getD s0) =
        some ((orbit G g p (a3 + 1) s0).getD s0) := by
      have h2 := hf (a3 + 1) (by omega)
      conv_lhs at h2 => rw [orbit_succ, hf a3 (by omega), Option.some_bind]
      exact h2
    have hrb : rayNext G g p ((orbit G g p b3 s0).getD s0) =
        some ((orbit G g p (b3 + 1) s0).getD s0) := by
      have h2 := hf (b3 + 1) (by omega)
      conv_lhs at h2 => rw [orbit_succ, hf b3 (by omega), Option.some_bind]
      exact h2
    rw [← he] at hrb
    obtain ⟨j, hj, hc⟩ := hfc (a3 + 1) (by omega) (by omega)
    have huv := rayNext_inj G hG g p _ _ _ j hc hra hrb
    have := ih b3 (by omega) (by omega) huv
    omega

theorem orbit_reaches_exit (G : Nat) (hG : 0 < G) (g p : List Int)
    (_hcell : ∀ i, i < G * G → getv g i < 0)
    (hperi : ∀ i, i < 4 * G → 0 ≤ getv p i)
    (si : Nat) (hsi : si < 4 * G) (d : Dir)
    (hd : initialDir G (.peri si) = some d) :
    ∃ k sk q, k ≤ 4 * (G * G) ∧ orbit G g p k (.peri si, d) = some sk ∧
      neighbor G sk.1 sk.2 = some q ∧ ¬ nodeVal g p q < 0 := by
  by_contra hcon
  push_neg at hcon
  have hswf : (Node.peri si, d).1.wf G := by
    simp only [Node.wf]
    omega
  have hstates : ∀ k, k ≤ 4 * (G * G) + 1 →
      ∃ sk, orbit G g p k (.peri si, d) = some sk ∧
        (1 ≤ k → ∃ j, j < G * G ∧ sk.1 = .cell j) := by
    intro k
    induction k with
    | zero =>
      intro _
      exact ⟨(.peri si, d), rfl, fun habs => absurd habs (by omega)⟩
    | succ k2 ih =>
      intro hk
      obtain ⟨sk, hsk, hint⟩ := ih (by omega)
      have hwr : sk.1.wf G := orbit_wf G hG g p k2 _ sk hswf hsk
      have hnb : ∃ q, neighbor G sk.1 sk.2 = some q := by
        rcases Nat.eq_zero_or_pos k2 with hz | hpos
        · subst hz
          simp only [orbit, Option.some_inj] at hsk
          rw [← hsk]
          exact initialDir_nbr G (.peri si) d hd
        · obtain ⟨j, hj, hcellj⟩ := hint hpos
          rw [hcellj]
          exact cell_nbr_isSome G hG j hj sk.2
      obtain ⟨q, hq⟩ := hnb
      have hneg : nodeVal g p q < 0 := hcon k2 sk q (by omega) hsk hq
      have hray : rayNext G g p sk = some (q, reflect (nodeVal g p q) sk.2) := by
        rw [rayNext, hq]
        dsimp only
        rw [if_pos hneg]
      refine ⟨(q, reflect (nodeVal g p q) sk.2), ?_, ?_⟩
      · rw [orbit_succ, hsk, Option.some_bind, hray]
      · intro _
        have hqwf : q.wf G := nbr_wf G hG sk.1 sk.2 q hwr hq
        cases q with
        | cell j => exact ⟨j, by simpa [Node.wf] using hqwf, rfl⟩
        | peri j =>
          exfalso
          have h0 : 0 ≤ getv p j := hperi j (by simpa [Node.wf] using hqwf)
          simp only [nodeVal] at hneg
          omega
  have hf : ∀ k, k ≤ 4 * (G * G) + 1 →
      orbit G g p k (.peri si, d) =
        some ((orbit G g p k (.peri si, d)).getD (.peri si, d)) := by
    intro k hk
    obtain ⟨sk, hsk, _⟩ := hstates k hk
    rw [hsk]
    rfl
  have hfc : ∀ k, 1 ≤ k → k ≤ 4 * (G * G) + 1 →
      ∃ j, j < G * G ∧
        ((orbit G g p k (.peri si, d)).getD (.peri si, d)).1 = .cell j := by
    intro k h1 hk
    obtain ⟨sk, hsk, hint⟩ := hstates k hk
    rw [hsk]
    exact hint h1
  have hmaps : ∀ k ∈ Finset.Icc 1 (4 * (G * G) + 1),
      encSt ((orbit G g p k (.peri si, d)).getD (.peri si, d)) ∈
        Finset.range (4 * (G * G)) := by
    intro k hk
    rw [Finset.mem_Icc] at hk
    obtain ⟨j, hj, hcellj⟩ := hfc k hk.1 hk.2
    rw [Finset.mem_range, encSt_cell _ j hcellj]
    have hdi := dirIdx_lt ((orbit G g p k (.peri si, d)).getD (.peri si, d)).2
    have hm4 : 4 * (j + 1) ≤ 4 * (G * G) := Nat.mul_le_mul_left 4 (by omega)
    omega
  obtain ⟨a, ha, b, hb, hab, heq⟩ :=
    Finset.exists_ne_map_eq_of_card_lt_of_maps_to
      (by
        rw [Nat.card_Icc, Finset.card_range]
        omega)
      hmaps
  rw [Finset.mem_Icc] at ha hb
  have hdec : (orbit G g p a (.peri si, d)).getD (.peri si, d) =
      (orbit G g p b (.peri si, d)).getD (.peri si, d) := by
    obtain ⟨j1, hj1, hc1⟩ := hfc a ha.1 ha.2
    obtain ⟨j2, hj2, hc2⟩ := hfc b hb.1 hb.2
    rw [encSt_cell _ j1 hc1, encSt_cell _ j2 hc2] at heq
    have hd1 := dirIdx_lt ((orbit G g p a (.peri si, d)).getD (.peri si, d)).2
    have hd2 := dirIdx_lt ((orbit G g p b (.peri si, d)).getD (.peri si, d)).2
    have hjj : j1 = j2 := by omega
    have hdd : ((orbit G g p a (.peri si, d)).getD (.peri si, d)).2 =
        ((orbit G g p b (.peri si, d)).getD (.peri si, d)).2 :=
      dirIdx_inj _ _ (by omega)
    rw [Prod.ext_iff]
    refine ⟨?_, hdd⟩
    rw [hc1, hc2, hjj]
  rcases Nat.lt_or_ge a b with hlt | hge
  · exact hab (orbit_chain G hG g p (.peri si, d) si rfl (4 * (G * G))
      hf hfc a b (by omega) hb.2 hdec)
  · exact hab ((orbit_chain G hG g p (.peri si, d) si rfl (4 * (G * G))
      hf hfc b a (by omega) ha.2 hdec.symm).symm)

/-! ## C4: traversal termination and the step bound -/

/-- C4 counterexample: in a validated, linked 2×2 field (`GRID_SIZE = 2`,
interior mirrors NONE, BACKWARD, BACKWARD, FORWARD, alphabet 10..17) the
traversal entered at top slot 0 enters `5 > GRID_SIZE² = 4` interior cells
(cells 0, 2, 3, 1 and 0 again — the NONE cell is crossed both vertically
and horizontally), so with fuel for `GRID_SIZE²` cell entries plus the
exit step the traversal is not finished, while it does terminate at
perimeter slot 6 within the fuel `4·GRID_SIZE² + 1`. -/
theorem c4_steps_counterexample :
    advance 2 (2 * 2 + 1) [-1, -4, -4, -2] [10, 11, 12, 13, 14, 15, 16, 17]
        (.peri 0) .down = none ∧
    advance 2 (4 * (2 * 2) + 1) [-1, -4, -4, -2] [10, 11, 12, 13, 14, 15, 16, 17]
        (.peri 0) .down =
      some (.peri 6, [-1, -2, -2, -3], [10, 11, 12, 13, 14, 15, 16, 17]) := by
  constructor
  · decide
  · decide

/-- C4 (amended): for every validated field (interior cell values are
mirror codes, perimeter values non-negative) and every in-range entry slot
with its link-determined initial direction, the traversal automaton
terminates and returns a perimeter slot, entering at most `4·GRID_SIZE²`
cells (fuel `4·GRID_SIZE² + 1` always suffices): each (cell, direction)
pair occurs at most once on the descent because the step relation is
injective, and there are only `4·GRID_SIZE²` such pairs.  The claimed
bound `GRID_SIZE²` is too small (see the counterexample); `4·GRID_SIZE²`
is the correct bound. -/
theorem c4_advance_terminates (G : Nat) (g p : List Int) (si : Nat) (d : Dir)
    (hG : 0 < G)
    (hcell : ∀ i, i < G * G → MIRROR_BACKWARD ≤ getv g i ∧ getv g i ≤ MIRROR_NONE)
    (hperi : ∀ i, i < 4 * G → 0 ≤ getv p i)
    (hsi : si < 4 * G)
    (hd : initialDir G (.peri si) = some d) :
    ∃ j g2 p2, advance G (4 * (G * G) + 1) g p (.peri si) d =
      some (.peri j, g2, p2) ∧ j < 4 * G := by
  have hneg : ∀ i, i < G * G → getv g i < 0 := by
    intro i hi
    have hc := hcell i hi
    simp only [MIRROR_NONE, MIRROR_BACKWARD] at hc
    omega
  obtain ⟨k, sk, q, hk, horb, hnb, hv⟩ :=
    orbit_reaches_exit G hG g p hneg hperi si hsi d hd
  obtain ⟨g2, p2, hadv⟩ := orbit_exit_advance G g p k (.peri si, d) sk q horb hnb hv
    (4 * (G * G) + 1) (by omega)
  have hqwf : q.wf G := by
    have hskwf : sk.1.wf G := orbit_wf G hG g p k _ sk (by simp only [Node.wf]; omega) horb
    exact nbr_wf G hG sk.1 sk.2 q hskwf hnb
  cases q with
  | cell j =>
    exfalso
    have hj : j < G * G := by simpa [Node.wf] using hqwf
    have hlt := hneg j hj
    simp only [nodeVal] at hv
    omega
  | peri j =>
    exact ⟨j, g2, p2, hadv, by simpa [Node.wf] using hqwf⟩

/-- C4 witness: the amended theorem applied to the all-NONE 2×2 field with
alphabet 0..7 entered at top slot 0. -/
theorem c4_advance_terminates_witness :
    ∃ j g2 p2, advance 2 (4 * (2 * 2) + 1) [-1, -1, -1, -1] [0, 1, 2, 3, 4, 5, 6, 7]
      (.peri 0) .down = some (.peri j, g2, p2) ∧ j < 4 * 2 :=
  c4_advance_terminates 2 [-1, -1, -1, -1] [0, 1, 2, 3, 4, 5, 6, 7] 0 .down
    (by decide) (by decide) (by decide) (by decide) (by decide)
